import Mathlib

/-!
Verification of the spectral CSG path-tracing core configured by
`demos/demo_bunny.py`.  The rendering engine itself (raysect) is not part of
the repository sources, so its components are modelled from the
specification; the demo scene's concrete geometry and camera settings are
translated directly from `demo_bunny.py`.
-/

/-- Modelled from the spec: a surface-intersection interval along a ray, as
produced by the CSG evaluator (the engine code is not in the repository).
`lo` is the entry distance, `hi` the exit distance. -/
structure RayInterval where
  lo : ℚ
  hi : ℚ
deriving DecidableEq, Repr

/-- Modelled from the spec: the part of one interval `a` that lies outside a
second interval `b` ("remove any sub-interval also inside B"): up to two
pieces, the part of `a` before `b` and the part of `a` after `b`. -/
def intervalMinus (a b : RayInterval) : List RayInterval :=
  (if a.lo < b.lo then [⟨a.lo, min a.hi b.lo⟩] else []) ++
  (if b.hi < a.hi then [⟨max a.lo b.hi, a.hi⟩] else [])

/-- Absolute value on ℚ written with an explicit branch so that concrete
instances reduce by evaluation. -/
def ratAbs (x : ℚ) : ℚ :=
  if x < 0 then -x else x

/-- Modelled from the spec: the CSG evaluator's degeneracy rule — tangential
(zero-length) intervals are discarded, and intervals whose length
`|exit − entry|` falls below the epsilon are treated as no intersection. -/
def dropDegenerate (eps : ℚ) (l : List RayInterval) : List RayInterval :=
  l.filter (fun iv => decide (eps ≤ ratAbs (iv.hi - iv.lo)) && decide (iv.hi ≠ iv.lo))

/-- Modelled from the spec: CSG subtraction on the interval lists of two
solids along a ray — A's intervals minus B's intervals, with degenerate
pieces discarded. -/
def subtractLists (eps : ℚ) (as bs : List RayInterval) : List RayInterval :=
  dropDegenerate eps (bs.foldl (fun acc b => acc.flatMap (fun a => intervalMinus a b)) as)

/-- Modelled from the spec: a convex solid produces at most one
entry/exit interval along any ray. -/
def ConvexIntervals (l : List RayInterval) : Prop :=
  l.length ≤ 1

theorem intervalMinus_self (a : RayInterval) : intervalMinus a a = [] := by
  simp [intervalMinus]

theorem subtractLists_self_convex (eps : ℚ) (l : List RayInterval)
    (h : ConvexIntervals l) : subtractLists eps l l = [] := by
  match l, h with
  | [], _ => simp [subtractLists, dropDegenerate]
  | [a], _ =>
      simp [subtractLists, dropDegenerate, intervalMinus_self]

theorem subtract_example_left :
    subtractLists 0 [⟨0, 2⟩] [⟨1, 3⟩] = [⟨0, 1⟩] := by
  norm_num [subtractLists, dropDegenerate, ratAbs, intervalMinus]

theorem subtract_example_right :
    subtractLists 0 [⟨1, 3⟩] [⟨0, 2⟩] = [⟨2, 3⟩] := by
  norm_num [subtractLists, dropDegenerate, ratAbs, intervalMinus]

/-- C1: for every convex solid A the CSG evaluator's subtract(A, A) yields the
empty solid — along every ray the interval list of subtract(A, A) is empty —
and subtraction is non-commutative: there are solids A, B and a ray for which
subtract(A, B) and subtract(B, A) produce different interval lists. -/
theorem csg_subtract_self_empty_and_noncommutative :
    (∀ (eps : ℚ) (l : List RayInterval), ConvexIntervals l →
      subtractLists eps l l = []) ∧
    (∃ as bs : List RayInterval, ∃ eps : ℚ,
      subtractLists eps as bs ≠ subtractLists eps bs as) := by
  refine ⟨fun eps l h => subtractLists_self_convex eps l h, ⟨[⟨0, 2⟩], [⟨1, 3⟩], 0, ?_⟩⟩
  rw [subtract_example_left, subtract_example_right]
  simp

/-- C1 witness: the subtract-self half applied to the concrete convex solid
whose ray interval is [0, 2]. -/
theorem csg_subtract_self_empty_and_noncommutative_witness :
    subtractLists 0 [(⟨0, 2⟩ : RayInterval)] [⟨0, 2⟩] = [] :=
  csg_subtract_self_empty_and_noncommutative.1 0 [⟨0, 2⟩] (by simp [ConvexIntervals])

/-- Modelled from the spec: the outcome the scene and sampler dictate for one
TRACE step of the integrator, before the depth cutoff is considered. -/
inductive StepOutcome where
  | scattered
  | absorbed
  | escaped
  | rouletteKilled
deriving DecidableEq, Repr

/-- Modelled from the spec: the state machine of the spectral path tracer,
{TRACE → (ABSORBED | SCATTERED → TRACE | ESCAPED | RUSSIAN_ROULETTE_KILLED |
MAX_DEPTH_REACHED)}.  A TRACE state carries the recursion depth. -/
inductive PathState where
  | trace (depth : ℕ)
  | absorbedEnd
  | escapedEnd
  | rouletteKilledEnd
  | maxDepthReachedEnd
deriving DecidableEq, Repr

/-- Modelled from the spec: one transition of the path tracer.  If the depth
has reached `ray_max_depth` the path is forced into MAX_DEPTH_REACHED;
otherwise the scene outcome (given by the oracle at the current depth)
decides the successor, a scatter increasing the depth by one.  Terminal
states are fixed points. -/
def pathStep (rayMaxDepth : ℕ) (oracle : ℕ → StepOutcome) :
    PathState → PathState
  | .trace d =>
      if rayMaxDepth ≤ d then .maxDepthReachedEnd
      else
        match oracle d with
        | .scattered => .trace (d + 1)
        | .absorbed => .absorbedEnd
        | .escaped => .escapedEnd
        | .rouletteKilled => .rouletteKilledEnd
  | s => s

/-- Modelled from the spec: the path after `n` transitions, starting from the
primary ray at depth 0. -/
def pathAt (rayMaxDepth : ℕ) (oracle : ℕ → StepOutcome) (n : ℕ) : PathState :=
  (pathStep rayMaxDepth oracle)^[n] (.trace 0)

/-- Depth recorded in a state, when the state is still tracing. -/
def stateDepth : PathState → Option ℕ
  | .trace d => some d
  | _ => none

theorem pathStep_depth_le (rayMaxDepth : ℕ) (oracle : ℕ → StepOutcome)
    (s : PathState) (d : ℕ) (hd : stateDepth (pathStep rayMaxDepth oracle s) = some d) :
    d ≤ rayMaxDepth := by
  cases s with
  | trace e =>
      by_cases h : rayMaxDepth ≤ e
      · simp [pathStep, h, stateDepth] at hd
      · cases ho : oracle e <;>
          simp [pathStep, h, ho, stateDepth] at hd <;> omega
  | absorbedEnd => simp [pathStep, stateDepth] at hd
  | escapedEnd => simp [pathStep, stateDepth] at hd
  | rouletteKilledEnd => simp [pathStep, stateDepth] at hd
  | maxDepthReachedEnd => simp [pathStep, stateDepth] at hd

theorem pathAt_depth_le (rayMaxDepth : ℕ) (oracle : ℕ → StepOutcome)
    (n d : ℕ) (hd : stateDepth (pathAt rayMaxDepth oracle n) = some d) :
    d ≤ rayMaxDepth := by
  cases n with
  | zero =>
      simp [pathAt, stateDepth] at hd
      omega
  | succ m =>
      have : pathAt rayMaxDepth oracle (m + 1)
          = pathStep rayMaxDepth oracle (pathAt rayMaxDepth oracle m) := by
        simp [pathAt, Function.iterate_succ_apply']
      rw [this] at hd
      exact pathStep_depth_le rayMaxDepth oracle _ d hd

theorem pathStep_depth_mono (rayMaxDepth : ℕ) (oracle : ℕ → StepOutcome)
    (s : PathState) (d e : ℕ) (hs : stateDepth s = some d)
    (ht : stateDepth (pathStep rayMaxDepth oracle s) = some e) : d ≤ e := by
  cases s with
  | trace f =>
      simp [stateDepth] at hs
      by_cases h : rayMaxDepth ≤ f
      · simp [pathStep, h, stateDepth] at ht
      · cases ho : oracle f <;>
          simp [pathStep, h, ho, stateDepth] at ht <;> omega
  | absorbedEnd => simp [stateDepth] at hs
  | escapedEnd => simp [stateDepth] at hs
  | rouletteKilledEnd => simp [stateDepth] at hs
  | maxDepthReachedEnd => simp [stateDepth] at hs

theorem pathAt_succ (rayMaxDepth : ℕ) (oracle : ℕ → StepOutcome) (n : ℕ) :
    pathAt rayMaxDepth oracle (n + 1)
      = pathStep rayMaxDepth oracle (pathAt rayMaxDepth oracle n) := by
  simp [pathAt, Function.iterate_succ_apply']

/-- C2: along every traced path the recursion depth is monotonically
increasing and never exceeds `ray_max_depth`, and whenever the depth reaches
`ray_max_depth` before natural termination the next transition forces the
terminal state MAX_DEPTH_REACHED. -/
theorem path_depth_bounded_monotone_maxforced :
    (∀ (rayMaxDepth : ℕ) (oracle : ℕ → StepOutcome) (n d e : ℕ),
        stateDepth (pathAt rayMaxDepth oracle n) = some d →
        stateDepth (pathAt rayMaxDepth oracle (n + 1)) = some e → d ≤ e) ∧
    (∀ (rayMaxDepth : ℕ) (oracle : ℕ → StepOutcome) (n d : ℕ),
        stateDepth (pathAt rayMaxDepth oracle n) = some d → d ≤ rayMaxDepth) ∧
    (∀ (rayMaxDepth : ℕ) (oracle : ℕ → StepOutcome) (n : ℕ),
        stateDepth (pathAt rayMaxDepth oracle n) = some rayMaxDepth →
        pathAt rayMaxDepth oracle (n + 1) = .maxDepthReachedEnd) := by
  refine ⟨?_, ?_, ?_⟩
  · intro rayMaxDepth oracle n d e hd he
    rw [pathAt_succ] at he
    exact pathStep_depth_mono rayMaxDepth oracle _ d e hd he
  · intro rayMaxDepth oracle n d hd
    exact pathAt_depth_le rayMaxDepth oracle n d hd
  · intro rayMaxDepth oracle n hd
    rw [pathAt_succ]
    cases hs : pathAt rayMaxDepth oracle n with
    | trace f =>
        rw [hs] at hd
        simp [stateDepth] at hd
        simp [pathStep, hd]
    | absorbedEnd => rw [hs] at hd; simp [stateDepth] at hd
    | escapedEnd => rw [hs] at hd; simp [stateDepth] at hd
    | rouletteKilledEnd => rw [hs] at hd; simp [stateDepth] at hd
    | maxDepthReachedEnd => rw [hs] at hd; simp [stateDepth] at hd

/-- C2 witness: with `ray_max_depth = 2` and a scene that always scatters,
the depth grows 0, 1, 2, stays within the bound, and the step after depth 2
is forced into MAX_DEPTH_REACHED. -/
theorem path_depth_bounded_monotone_maxforced_witness :
    (1 : ℕ) ≤ 2 ∧ (2 : ℕ) ≤ 2 ∧
    pathAt 2 (fun _ => StepOutcome.scattered) 3 = PathState.maxDepthReachedEnd :=
  ⟨path_depth_bounded_monotone_maxforced.1 2 (fun _ => .scattered) 1 1 2
      (by decide) (by decide),
   path_depth_bounded_monotone_maxforced.2.1 2 (fun _ => .scattered) 2 2 (by decide),
   path_depth_bounded_monotone_maxforced.2.2 2 (fun _ => .scattered) 2 (by decide)⟩

/-- Modelled from the spec: the Russian-roulette decision at recursion depth
`d` with extinction probability `p` and remaining weight `w`.  Before
`ray_min_depth` recursions roulette is not applied and the weight passes
through unchanged; afterwards the path is terminated (`none`) when the
extinction draw kills it, and otherwise continues with the weight divided by
`(1 − p)`. -/
def rouletteStep (rayMinDepth : ℕ) (p : ℚ) (d : ℕ) (kill : Bool) (w : ℚ) :
    Option ℚ :=
  if d < rayMinDepth then some w
  else if kill then none
  else some (w / (1 - p))

/-- Modelled from the spec: the estimator value carried onward by the path — a
killed path contributes nothing beyond what is already accumulated. -/
def rouletteContribution (rayMinDepth : ℕ) (p : ℚ) (d : ℕ) (kill : Bool)
    (w : ℚ) : ℚ :=
  (rouletteStep rayMinDepth p d kill w).getD 0

/-- Modelled from the spec: the expectation of the roulette estimator over the
extinction draw — kill with probability `p`, survive with probability
`(1 − p)`. -/
def rouletteExpectation (rayMinDepth : ℕ) (p : ℚ) (d : ℕ) (w : ℚ) : ℚ :=
  p * rouletteContribution rayMinDepth p d true w
    + (1 - p) * rouletteContribution rayMinDepth p d false w

/-- C3: Russian roulette is applied only after `ray_min_depth` recursions; at
an applied depth a killed path contributes nothing further and a surviving
path carries the weight divided by `(1 − p)`; and for every extinction
probability `p` in [0, 1) the expectation of the reweighted estimator over
the extinction draw equals the weight `w`, the expectation of the estimator
without roulette — unbiasedness. -/
theorem russian_roulette_unbiased :
    (∀ (rayMinDepth : ℕ) (p : ℚ) (d : ℕ) (kill : Bool) (w : ℚ),
        d < rayMinDepth → rouletteStep rayMinDepth p d kill w = some w) ∧
    (∀ (rayMinDepth : ℕ) (p : ℚ) (d : ℕ) (w : ℚ), rayMinDepth ≤ d →
        rouletteStep rayMinDepth p d true w = none ∧
        rouletteContribution rayMinDepth p d true w = 0 ∧
        rouletteStep rayMinDepth p d false w = some (w / (1 - p))) ∧
    (∀ (rayMinDepth : ℕ) (p : ℚ) (d : ℕ) (w : ℚ), 0 ≤ p → p < 1 →
        rouletteExpectation rayMinDepth p d w = w) := by
  refine ⟨?_, ?_, ?_⟩
  · intro rayMinDepth p d kill w hd
    simp [rouletteStep, hd]
  · intro rayMinDepth p d w hd
    have hd2 : ¬ d < rayMinDepth := by omega
    exact ⟨by simp [rouletteStep, hd2], by simp [rouletteContribution, rouletteStep, hd2],
      by simp [rouletteStep, hd2]⟩
  · intro rayMinDepth p d w _ hp1
    have hne : 1 - p ≠ 0 := by
      intro h
      have : p = 1 := by linarith [h]
      exact absurd this (ne_of_lt hp1)
    by_cases hd : d < rayMinDepth
    · simp only [rouletteExpectation, rouletteContribution, rouletteStep, if_pos hd]
      simp [Option.getD]
      ring
    · simp only [rouletteExpectation, rouletteContribution, rouletteStep, if_neg hd]
      simp [Option.getD]
      field_simp

/-- C3 witness: at the demo's extinction probability 1/100 and minimum depth
3, roulette leaves the weight untouched at depth 2, and at depth 5 the
estimator with weight 7 is unbiased. -/
theorem russian_roulette_unbiased_witness :
    rouletteStep 3 (1/100) 2 true 7 = some 7 ∧
    rouletteExpectation 3 (1/100) 5 7 = 7 :=
  ⟨russian_roulette_unbiased.1 3 (1/100) 2 true 7 (by norm_num),
   russian_roulette_unbiased.2.2 3 (1/100) 5 7 (by norm_num) (by norm_num)⟩

/-- Modelled from the spec: the pair of sub-paths spawned by one dielectric
surface interaction — a reflection weight, whether a refraction sub-path is
spawned, and its weight. -/
structure DielectricSplit where
  reflectionWeight : ℚ
  refractionSpawned : Bool
  refractionWeight : ℚ
deriving DecidableEq, Repr

/-- Modelled from the spec: steps 2–3 of the dielectric interaction.
`inside` says the ray is already inside the medium, `eta` is the ratio of the
inner to the outer refractive index, `sin2i` the squared sine of the
incidence angle, and `fresnel` the unpolarized Fresnel reflectance of step 1.
When the ray is inside and the angle exceeds the critical angle
(`eta ^ 2 * sin2i > 1`, Snell's law admitting no transmitted direction),
total internal reflection forces `R = 1`; a refraction sub-path with weight
`(1 − R)` is spawned only when `R < 1`. -/
def dielectricInteract (inside : Bool) (eta sin2i fresnel : ℚ) :
    DielectricSplit :=
  let tir := inside && decide (1 < eta ^ 2 * sin2i)
  let R := if tir then 1 else fresnel
  { reflectionWeight := R
    refractionSpawned := decide (R < 1)
    refractionWeight := if R < 1 then 1 - R else 0 }

/-- C4: when the ray is inside the medium and the incidence angle exceeds the
critical angle, the Fresnel reflectance is forced to exactly 1, the
refraction weight is exactly 0 and no refraction sub-path is spawned; in
every dielectric interaction a refraction sub-path is spawned exactly when
the reflectance is below 1, and then carries weight `(1 − R)`. -/
theorem dielectric_total_internal_reflection :
    (∀ eta sin2i fresnel : ℚ, 1 < eta ^ 2 * sin2i →
        (dielectricInteract true eta sin2i fresnel).reflectionWeight = 1 ∧
        (dielectricInteract true eta sin2i fresnel).refractionWeight = 0 ∧
        (dielectricInteract true eta sin2i fresnel).refractionSpawned = false) ∧
    (∀ (inside : Bool) (eta sin2i fresnel : ℚ),
        ((dielectricInteract inside eta sin2i fresnel).refractionSpawned = true ↔
          (dielectricInteract inside eta sin2i fresnel).reflectionWeight < 1) ∧
        ((dielectricInteract inside eta sin2i fresnel).refractionSpawned = true →
          (dielectricInteract inside eta sin2i fresnel).refractionWeight
            = 1 - (dielectricInteract inside eta sin2i fresnel).reflectionWeight)) := by
  constructor
  · intro eta sin2i fresnel htir
    simp [dielectricInteract, htir]
  · intro inside eta sin2i fresnel
    constructor
    · simp [dielectricInteract]
    · intro hsp
      simp only [dielectricInteract, decide_eq_true_eq] at hsp ⊢
      rw [if_pos hsp]

/-- C4 witness: inside a medium with index ratio 2 at squared-sine 1/2 the
angle is beyond critical, so reflection weight is 1, refraction weight 0 and
no refraction sub-path is spawned, whatever Fresnel value step 1 produced. -/
theorem dielectric_total_internal_reflection_witness :
    (dielectricInteract true 2 (1/2) (1/10)).reflectionWeight = 1 ∧
    (dielectricInteract true 2 (1/2) (1/10)).refractionWeight = 0 ∧
    (dielectricInteract true 2 (1/2) (1/10)).refractionSpawned = false :=
  dielectric_total_internal_reflection.1 2 (1/2) (1/10) (by norm_num)

/-- Modelled from the spec: an affine transform, represented as a 4 × 4
homogeneous matrix over ℚ; composition is matrix multiplication. -/
abbrev SceneTransform := Matrix (Fin 4) (Fin 4) ℚ

/-- Modelled from the spec: a scene-graph node reached from the root through
the chain of its ancestors, each edge carrying the child's local transform.
The acyclic parent/child relation makes every node such a finite chain. -/
inductive SceneNode where
  | root
  | child (parent : SceneNode) (localTransform : SceneTransform)

/-- Modelled from the spec: `world_transform(node)`, composing local
transforms from the node up to the root, the root's world transform being
the identity. -/
def world_transform : SceneNode → SceneTransform
  | .root => 1
  | .child p t => world_transform p * t

/-- Local transforms along the path from the root down to the node, in
parent-to-child order. -/
def pathTransforms : SceneNode → List SceneTransform
  | .root => []
  | .child p t => pathTransforms p ++ [t]

theorem world_transform_eq_prod (n : SceneNode) :
    world_transform n = (pathTransforms n).prod := by
  induction n with
  | root => simp [world_transform, pathTransforms]
  | child p t ih =>
      simp [world_transform, pathTransforms, List.prod_append, ih]

/-- C5: the world transform of every scene-graph node is the sequential
composition of the local transforms along the path from the root to the
node, the root's world transform being the identity; for a node three levels
deep the resolved world transform equals the composition of its three local
transforms in parent-to-child order, in either association. -/
theorem scene_graph_world_transform_composition :
    world_transform .root = 1 ∧
    (∀ n : SceneNode, world_transform n = (pathTransforms n).prod) ∧
    (∀ t₁ t₂ t₃ : SceneTransform,
        world_transform (.child (.child (.child .root t₁) t₂) t₃)
          = (t₁ * t₂) * t₃ ∧
        world_transform (.child (.child (.child .root t₁) t₂) t₃)
          = t₁ * (t₂ * t₃)) := by
  refine ⟨rfl, world_transform_eq_prod, ?_⟩
  intro t₁ t₂ t₃
  constructor
  · simp [world_transform]
  · simp [world_transform, mul_assoc]

/-- Modelled from the spec: the entry-boundary candidates of a scene along a
ray.  The scene is the list of its primitives' interval lists in traversal
order, enumerated from index `i`; a candidate pairs the primitive's
traversal index with an entry distance that is positive and non-degenerate
(strictly beyond the epsilon). -/
def entryCandidatesFrom (eps : ℚ) (i : ℕ) :
    List (List RayInterval) → List (ℕ × ℚ)
  | [] => []
  | ivs :: rest =>
      ivs.filterMap (fun iv => if eps < iv.lo then some (i, iv.lo) else none)
        ++ entryCandidatesFrom eps (i + 1) rest

/-- Modelled from the spec: fold of the running nearest candidate — a later
candidate replaces the current one only when strictly nearer, so ties keep
the candidate met first in traversal order. -/
def pickNearer (best : Option (ℕ × ℚ)) (c : ℕ × ℚ) : Option (ℕ × ℚ) :=
  match best with
  | none => some c
  | some b => if c.2 < b.2 then some c else some b

/-- Modelled from the spec: the nearest-hit query — reduce the scene's
primitive intervals to the single nearest entry boundary with positive,
non-degenerate distance, ties broken toward the primitive met first in
traversal order. -/
def nearestHit (eps : ℚ) (scene : List (List RayInterval)) : Option (ℕ × ℚ) :=
  (entryCandidatesFrom eps 0 scene).foldl pickNearer none

/-- Reference recursion for the fold with a non-empty accumulator: the first
candidate attaining the minimal distance. -/
def firstMinAux (b : ℕ × ℚ) : List (ℕ × ℚ) → ℕ × ℚ
  | [] => b
  | c :: cs => if c.2 < b.2 then firstMinAux c cs else firstMinAux b cs

theorem foldl_pickNearer_some (b : ℕ × ℚ) (l : List (ℕ × ℚ)) :
    l.foldl pickNearer (some b) = some (firstMinAux b l) := by
  induction l generalizing b with
  | nil => rfl
  | cons c cs ih =>
      by_cases h : c.2 < b.2
      · simp [List.foldl_cons, pickNearer, h, firstMinAux, ih]
      · simp [List.foldl_cons, pickNearer, h, firstMinAux, ih]

theorem firstMinAux_mem_lt (b : ℕ × ℚ) (l : List (ℕ × ℚ)) :
    firstMinAux b l = b ∨ (firstMinAux b l ∈ l ∧ (firstMinAux b l).2 < b.2) := by
  induction l generalizing b with
  | nil => left; rfl
  | cons c cs ih =>
      by_cases h : c.2 < b.2
      · right
        rcases ih c with h1 | ⟨h1, h2⟩
        · rw [firstMinAux, if_pos h, h1]
          exact ⟨List.mem_cons_self c cs, h⟩
        · rw [firstMinAux, if_pos h]
          exact ⟨List.mem_cons_of_mem c h1, lt_trans h2 h⟩
      · rcases ih b with h1 | ⟨h1, h2⟩
        · left; rw [firstMinAux, if_neg h, h1]
        · right
          rw [firstMinAux, if_neg h]
          exact ⟨List.mem_cons_of_mem c h1, h2⟩

theorem firstMinAux_min (b : ℕ × ℚ) (l : List (ℕ × ℚ)) :
    (firstMinAux b l).2 ≤ b.2 ∧ ∀ c ∈ l, (firstMinAux b l).2 ≤ c.2 := by
  induction l generalizing b with
  | nil => exact ⟨le_refl _, by simp⟩
  | cons c cs ih =>
      by_cases h : c.2 < b.2
      · rcases ih c with ⟨h1, h2⟩
        rw [firstMinAux, if_pos h]
        refine ⟨le_of_lt (lt_of_le_of_lt h1 h), ?_⟩
        intro d hd
        rcases List.mem_cons.mp hd with rfl | hd
        · exact h1
        · exact h2 d hd
      · rcases ih b with ⟨h1, h2⟩
        rw [firstMinAux, if_neg h]
        refine ⟨h1, ?_⟩
        intro d hd
        rcases List.mem_cons.mp hd with rfl | hd
        · exact le_trans h1 (le_of_not_lt h)
        · exact h2 d hd

theorem firstMinAux_tiebreak (b : ℕ × ℚ) (l : List (ℕ × ℚ))
    (hsort : (b :: l).Pairwise (fun x y => x.1 ≤ y.1)) :
    ∀ c ∈ b :: l, c.2 = (firstMinAux b l).2 → (firstMinAux b l).1 ≤ c.1 := by
  induction l generalizing b with
  | nil =>
      intro c hc _
      rcases List.mem_singleton.mp hc with rfl
      exact le_refl _
  | cons c cs ih =>
      rcases List.pairwise_cons.mp hsort with ⟨hb, htail⟩
      intro d hd hdval
      by_cases h : c.2 < b.2
      · rw [firstMinAux, if_pos h] at hdval ⊢
        rcases List.mem_cons.mp hd with rfl | hd2
        · exfalso
          have hle : (firstMinAux c cs).2 ≤ c.2 := (firstMinAux_min c cs).1
          rw [← hdval] at hle
          exact absurd (lt_of_le_of_lt hle h) (lt_irrefl _)
        · exact ih c htail d hd2 hdval
      · rw [firstMinAux, if_neg h] at hdval ⊢
        have hsort2 : (b :: cs).Pairwise (fun x y => x.1 ≤ y.1) := by
          refine List.pairwise_cons.mpr ⟨?_, (List.pairwise_cons.mp htail).2⟩
          intro a ha
          exact hb a (List.mem_cons_of_mem c ha)
        rcases List.mem_cons.mp hd with heq | hd2
        · subst heq
          exact ih _ hsort2 _ (List.mem_cons_self _ _) hdval
        rcases List.mem_cons.mp hd2 with heq2 | hd3
        · subst heq2
          rcases firstMinAux_mem_lt b cs with h1 | ⟨_, h2⟩
          · rw [h1]
            exact hb _ (List.mem_cons_self _ _)
          · exact absurd (lt_of_le_of_lt (le_of_eq hdval) h2) h
        · exact ih _ hsort2 _ (List.mem_cons_of_mem _ hd3) hdval

theorem mem_entryCandidatesFrom (eps : ℚ) (scene : List (List RayInterval))
    (i : ℕ) (c : ℕ × ℚ) :
    c ∈ entryCandidatesFrom eps i scene ↔
      ∃ j ivs, scene[j]? = some ivs ∧
        ∃ iv ∈ ivs, eps < iv.lo ∧ c = (i + j, iv.lo) := by
  induction scene generalizing i with
  | nil => simp [entryCandidatesFrom]
  | cons ivs0 rest ih =>
      rw [entryCandidatesFrom, List.mem_append, ih]
      constructor
      · rintro (hmem | ⟨j, ivs, hj, iv, hiv, hlt, hc⟩)
        · rcases List.mem_filterMap.mp hmem with ⟨iv, hiv, hf⟩
          by_cases h : eps < iv.lo
          · rw [if_pos h] at hf
            refine ⟨0, ivs0, by simp, iv, hiv, h, ?_⟩
            rw [← Option.some_inj.mp hf]
            simp
          · rw [if_neg h] at hf
            exact absurd hf (Option.noConfusion)
        · refine ⟨j + 1, ivs, by simpa using hj, iv, hiv, hlt, ?_⟩
          rw [hc]
          have harith : i + 1 + j = i + (j + 1) := by omega
          rw [harith]
      · rintro ⟨j, ivs, hj, iv, hiv, hlt, hc⟩
        cases j with
        | zero =>
            left
            rw [List.getElem?_cons_zero, Option.some_inj] at hj
            subst hj
            refine List.mem_filterMap.mpr ⟨iv, hiv, ?_⟩
            rw [if_pos hlt, hc]
            simp
        | succ m =>
            right
            rw [List.getElem?_cons_succ] at hj
            refine ⟨m, ivs, hj, iv, hiv, hlt, ?_⟩
            rw [hc]
            have harith : i + (m + 1) = i + 1 + m := by omega
            rw [harith]

theorem entryGroup_fst (eps : ℚ) (i : ℕ) (ivs : List RayInterval) (c : ℕ × ℚ)
    (hc : c ∈ ivs.filterMap
      (fun iv => if eps < iv.lo then some (i, iv.lo) else none)) :
    c.1 = i ∧ eps < c.2 := by
  rcases List.mem_filterMap.mp hc with ⟨iv, _, hf⟩
  by_cases h : eps < iv.lo
  · rw [if_pos h, Option.some_inj] at hf
    rw [← hf]
    exact ⟨rfl, h⟩
  · rw [if_neg h] at hf
    exact absurd hf (Option.noConfusion)

theorem entryCandidatesFrom_fst_ge (eps : ℚ)
    (scene : List (List RayInterval)) (i : ℕ) (c : ℕ × ℚ)
    (hc : c ∈ entryCandidatesFrom eps i scene) : i ≤ c.1 := by
  rcases (mem_entryCandidatesFrom eps scene i c).mp hc with ⟨j, _, _, _, _, _, hcv⟩
  rw [hcv]
  exact Nat.le_add_right i j

theorem entryCandidatesFrom_pairwise (eps : ℚ)
    (scene : List (List RayInterval)) (i : ℕ) :
    (entryCandidatesFrom eps i scene).Pairwise (fun x y => x.1 ≤ y.1) := by
  induction scene generalizing i with
  | nil => simp [entryCandidatesFrom]
  | cons ivs0 rest ih =>
      rw [entryCandidatesFrom]
      refine List.pairwise_append.mpr ⟨?_, ih (i + 1), ?_⟩
      · refine List.pairwise_of_forall_mem_list ?_
        intro a ha b hb
        rw [(entryGroup_fst eps i ivs0 a ha).1, (entryGroup_fst eps i ivs0 b hb).1]
      · intro a ha b hb
        rw [(entryGroup_fst eps i ivs0 a ha).1]
        have := entryCandidatesFrom_fst_ge eps rest (i + 1) b hb
        omega

theorem entryCandidatesFrom_snd_pos (eps : ℚ)
    (scene : List (List RayInterval)) (i : ℕ) (c : ℕ × ℚ)
    (hc : c ∈ entryCandidatesFrom eps i scene) : eps < c.2 := by
  rcases (mem_entryCandidatesFrom eps scene i c).mp hc with
    ⟨j, ivs, hj, iv, hiv, hlt, hcv⟩
  rw [hcv]
  exact hlt

/-- C6: the nearest-hit query reduces the scene's primitive intersection
intervals to the single nearest entry boundary whose distance along the ray
is positive and non-degenerate (strictly beyond the epsilon): when it
returns a hit, the hit is an actual entry boundary of the named primitive,
its distance is minimal among all such boundaries, and a boundary of equal
distance can only belong to a primitive at the same or a later position in
scene traversal order; when it returns nothing, no primitive has such an
entry boundary. -/
theorem nearest_hit_query (eps : ℚ) (scene : List (List RayInterval)) :
    (nearestHit eps scene = none →
      ∀ (j : ℕ) (ivs : List RayInterval), scene[j]? = some ivs →
        ∀ iv ∈ ivs, ¬ eps < iv.lo) ∧
    (∀ r : ℕ × ℚ, nearestHit eps scene = some r →
      eps < r.2 ∧
      (∃ ivs : List RayInterval, scene[r.1]? = some ivs ∧
        ∃ iv ∈ ivs, iv.lo = r.2) ∧
      (∀ (j : ℕ) (ivs : List RayInterval), scene[j]? = some ivs →
        ∀ iv ∈ ivs, eps < iv.lo →
        r.2 ≤ iv.lo ∧ (iv.lo = r.2 → r.1 ≤ j))) := by
  cases hcand : entryCandidatesFrom eps 0 scene with
  | nil =>
      constructor
      · intro _ j ivs hj iv hiv hlt
        have hmem : ((j, iv.lo) : ℕ × ℚ) ∈ entryCandidatesFrom eps 0 scene :=
          (mem_entryCandidatesFrom eps scene 0 _).mpr
            ⟨j, ivs, hj, iv, hiv, hlt, by simp⟩
        rw [hcand] at hmem
        exact absurd hmem (List.not_mem_nil _)
      · intro r hr
        rw [nearestHit, hcand] at hr
        exact absurd hr (by simp [List.foldl])
  | cons c cs =>
      have hfold : nearestHit eps scene = some (firstMinAux c cs) := by
        rw [nearestHit, hcand, List.foldl_cons]
        exact foldl_pickNearer_some c cs
      constructor
      · intro hnone
        rw [hfold] at hnone
        exact absurd hnone (by simp)
      · intro r hr
        rw [hfold, Option.some_inj] at hr
        subst hr
        have hrmem : firstMinAux c cs ∈ entryCandidatesFrom eps 0 scene := by
          rw [hcand]
          rcases firstMinAux_mem_lt c cs with h1 | ⟨h1, _⟩
          · rw [h1]
            exact List.mem_cons_self _ _
          · exact List.mem_cons_of_mem _ h1
        have hpos := entryCandidatesFrom_snd_pos eps scene 0 _ hrmem
        rcases (mem_entryCandidatesFrom eps scene 0 _).mp hrmem with
          ⟨j, ivs, hj, iv, hiv, _, hcv⟩
        have hfst : (firstMinAux c cs).1 = j := by rw [hcv]; simp
        have hsnd : (firstMinAux c cs).2 = iv.lo := by rw [hcv]
        have hminall : ∀ x ∈ c :: cs, (firstMinAux c cs).2 ≤ x.2 := by
          intro x hx
          rcases List.mem_cons.mp hx with heq | hx2
          · rw [heq]
            exact (firstMinAux_min c cs).1
          · exact (firstMinAux_min c cs).2 x hx2
        have hpw : (c :: cs).Pairwise (fun x y => x.1 ≤ y.1) := by
          rw [← hcand]
          exact entryCandidatesFrom_pairwise eps scene 0
        refine ⟨hpos, ⟨ivs, by rw [hfst]; exact hj, iv, hiv, hsnd.symm⟩, ?_⟩
        intro j2 ivs2 hj2 iv2 hiv2 hlt2
        have hmem2 : ((j2, iv2.lo) : ℕ × ℚ) ∈ c :: cs := by
          rw [← hcand]
          exact (mem_entryCandidatesFrom eps scene 0 _).mpr
            ⟨j2, ivs2, hj2, iv2, hiv2, hlt2, by simp⟩
        refine ⟨hminall _ hmem2, ?_⟩
        intro heqv
        exact firstMinAux_tiebreak c cs hpw (j2, iv2.lo) hmem2 heqv

/-- C6 witness: in the two-primitive scene whose interval lists are
[[1, 2]] and [[1, 3]], both primitives present an entry boundary at distance
1; the query returns distance 1 with the tie broken to primitive 0, and the
minimality and tie-break conclusions hold at primitive 1. -/
theorem nearest_hit_query_witness :
    ((0 : ℕ), (1 : ℚ)).2 ≤ (RayInterval.mk 1 3).lo ∧
    ((0 : ℕ), (1 : ℚ)).1 ≤ 1 := by
  have h := (nearest_hit_query 0 [[⟨1, 2⟩], [⟨1, 3⟩]]).2 (0, 1)
    (by decide)
  have h2 := h.2.2 1 [⟨1, 3⟩] (by simp) ⟨1, 3⟩ (by simp) (by norm_num)
  exact ⟨h2.1, h2.2 rfl⟩

/-- Point in scene coordinates, from the demo's `Point3D` arguments. -/
structure PointQ where
  x : ℚ
  y : ℚ
  z : ℚ
deriving DecidableEq, Repr

/-- Axis-aligned box given by its lower and upper corner, from the demo's
`Box(lower, upper)` calls. -/
structure BoxQ where
  lower : PointQ
  upper : PointQ
deriving DecidableEq, Repr

/-- The demo's `padding = 1e-5`. -/
def padding : ℚ := 1 / 100000

/-- The demo's `enclosure_thickness = 0.001 + padding`. -/
def enclosure_thickness : ℚ := 1 / 1000 + padding

/-- The demo's `glass_thickness = 0.003`. -/
def glass_thickness : ℚ := 3 / 1000

/-- The demo's `enclosure_outer` box. -/
def enclosure_outer : BoxQ :=
  ⟨⟨-(1/10) - enclosure_thickness, -(1/50) - enclosure_thickness,
    -(1/10) - enclosure_thickness⟩,
   ⟨1/10 + enclosure_thickness, 0, 1/10 + enclosure_thickness⟩⟩

/-- The demo's `enclosure_inner` box. -/
def enclosure_inner : BoxQ :=
  ⟨⟨-(1/10) - padding, -(1/50) - padding, -(1/10) - padding⟩,
   ⟨1/10 + padding, 1/1000, 1/10 + padding⟩⟩

/-- The demo's `glass_outer` box. -/
def glass_outer : BoxQ :=
  ⟨⟨-(1/10), -(1/50), -(1/10)⟩, ⟨1/10, 0, 1/10⟩⟩

/-- The demo's `glass_inner` box. -/
def glass_inner : BoxQ :=
  ⟨⟨-(1/10) + glass_thickness, -(1/50) + glass_thickness,
    -(1/10) + glass_thickness⟩,
   ⟨1/10 - glass_thickness, 0 - glass_thickness, 1/10 - glass_thickness⟩⟩

/-- The demo's `emitter` box. -/
def emitter : BoxQ :=
  ⟨⟨-(1/10) + glass_thickness + padding, -(1/50) + glass_thickness + padding,
    -(1/10) + glass_thickness + padding⟩,
   ⟨1/10 - glass_thickness - padding, 0 - glass_thickness - padding,
    1/10 - glass_thickness - padding⟩⟩

/-- Face plane coordinates of a box along the x axis. -/
def xFaces (b : BoxQ) : List ℚ := [b.lower.x, b.upper.x]

/-- Face plane coordinates of a box along the y axis. -/
def yFaces (b : BoxQ) : List ℚ := [b.lower.y, b.upper.y]

/-- Face plane coordinates of a box along the z axis. -/
def zFaces (b : BoxQ) : List ℚ := [b.lower.z, b.upper.z]

/-- Two boxes have all their parallel face planes at least `gap` apart on
every axis: no pair of their surfaces is coincident, and any interval a ray
traverses between a face of one and a face of the other along an axis has
length at least `gap`. -/
def FacesSeparated (b₁ b₂ : BoxQ) (gap : ℚ) : Prop :=
  (∀ c₁ ∈ xFaces b₁, ∀ c₂ ∈ xFaces b₂, gap ≤ ratAbs (c₁ - c₂)) ∧
  (∀ c₁ ∈ yFaces b₁, ∀ c₂ ∈ yFaces b₂, gap ≤ ratAbs (c₁ - c₂)) ∧
  (∀ c₁ ∈ zFaces b₁, ∀ c₂ ∈ zFaces b₂, gap ≤ ratAbs (c₁ - c₂))

/-- C7: the CSG evaluator treats any interval whose `|exit − entry|` length
falls below the epsilon — in particular any tangential zero-length interval —
as no intersection: every interval the subtract evaluator emits has length
at least epsilon and is not zero-length; and in the reference scene the
padding offsets keep every pair of parallel face planes of the adjacent
nested shells (enclosure cavity against glass outer surface, glass cavity
against emitter surface) at least `padding = 1e-5 > 0` apart, so no two
nested-shell surfaces are coincident and no degenerate interval arises
between them. -/
theorem csg_degeneracy_rule_and_padding :
    (∀ (eps : ℚ) (as bs : List RayInterval), ∀ iv ∈ subtractLists eps as bs,
        eps ≤ ratAbs (iv.hi - iv.lo) ∧ iv.hi ≠ iv.lo) ∧
    0 < padding ∧
    FacesSeparated enclosure_inner glass_outer padding ∧
    FacesSeparated glass_inner emitter padding := by
  refine ⟨?_, by norm_num [padding], ?_, ?_⟩
  · intro eps as bs iv hiv
    rw [subtractLists] at hiv
    have hcond := (List.mem_filter.mp hiv).2
    rw [Bool.and_eq_true, decide_eq_true_eq, decide_eq_true_eq] at hcond
    exact ⟨hcond.1, hcond.2⟩
  · refine ⟨?_, ?_, ?_⟩ <;>
      · intro c₁ h₁ c₂ h₂
        simp only [xFaces, yFaces, zFaces, enclosure_inner, glass_outer,
          List.mem_cons, List.not_mem_nil, or_false] at h₁ h₂
        rcases h₁ with rfl | rfl <;> rcases h₂ with rfl | rfl <;>
          norm_num [ratAbs, padding, enclosure_thickness, glass_thickness]
  · refine ⟨?_, ?_, ?_⟩ <;>
      · intro c₁ h₁ c₂ h₂
        simp only [xFaces, yFaces, zFaces, glass_inner, emitter,
          List.mem_cons, List.not_mem_nil, or_false] at h₁ h₂
        rcases h₁ with rfl | rfl <;> rcases h₂ with rfl | rfl <;>
          norm_num [ratAbs, padding, enclosure_thickness, glass_thickness]

/-- C7 witness: for epsilon 0, the interval [0, 1] emitted by
subtract([0,2], [1,3]) has length at least 0 and is not zero-length. -/
theorem csg_degeneracy_rule_and_padding_witness :
    (0 : ℚ) ≤ ratAbs ((RayInterval.mk 0 1).hi - (RayInterval.mk 0 1).lo) ∧
    (RayInterval.mk 0 1).hi ≠ (RayInterval.mk 0 1).lo :=
  csg_degeneracy_rule_and_padding.1 0 [⟨0, 2⟩] [⟨1, 3⟩] ⟨0, 1⟩
    (by rw [subtract_example_left]; simp)

/-- Membership of a point in a closed axis-aligned box. -/
def inBox (b : BoxQ) (p : PointQ) : Prop :=
  b.lower.x ≤ p.x ∧ p.x ≤ b.upper.x ∧
  b.lower.y ≤ p.y ∧ p.y ≤ b.upper.y ∧
  b.lower.z ≤ p.z ∧ p.z ≤ b.upper.z

/-- Material of the CSG solid Subtract(a, b): inside `a` and not inside
the carved-out volume `b`. -/
def inSubtract (a b : BoxQ) (p : PointQ) : Prop :=
  inBox a p ∧ ¬ inBox b p

/-- C10: the enclosure's subtracted inner box extends above the outer box's
top plane (inner top y = 0.001 > outer top y = 0); consequently, across the
inner box's x–z footprint the solid Subtract(enclosure_outer,
enclosure_inner) contains no material at the top — indeed none anywhere
above the cavity floor — while material does remain below the cavity floor:
the absorbing enclosure is a five-sided open-topped tray, not a sealed
box. -/
theorem enclosure_open_topped :
    enclosure_outer.upper.y < enclosure_inner.upper.y ∧
    (∀ p : PointQ,
      enclosure_inner.lower.x ≤ p.x → p.x ≤ enclosure_inner.upper.x →
      enclosure_inner.lower.z ≤ p.z → p.z ≤ enclosure_inner.upper.z →
      enclosure_inner.lower.y < p.y →
      ¬ inSubtract enclosure_outer enclosure_inner p) ∧
    inSubtract enclosure_outer enclosure_inner ⟨0, -(21/1000), 0⟩ := by
  refine ⟨by norm_num [enclosure_outer, enclosure_inner], ?_, ?_⟩
  · intro p hx1 hx2 hz1 hz2 hy
    rintro ⟨hout, hinner⟩
    apply hinner
    have hytop : p.y ≤ enclosure_inner.upper.y := by
      have h1 : p.y ≤ enclosure_outer.upper.y := hout.2.2.2.1
      have h2 : enclosure_outer.upper.y ≤ enclosure_inner.upper.y := by
        norm_num [enclosure_outer, enclosure_inner]
      linarith
    exact ⟨hx1, hx2, le_of_lt hy, hytop, hz1, hz2⟩
  · constructor
    · refine ⟨?_, ?_, ?_, ?_, ?_, ?_⟩ <;>
        norm_num [enclosure_outer, enclosure_thickness, padding]
    · intro hmem
      have h := hmem.2.2.1
      norm_num [enclosure_inner, padding] at h

/-- C10 witness: the origin lies inside the inner footprint above the cavity
floor, so it carries no enclosure material. -/
theorem enclosure_open_topped_witness :
    ¬ inSubtract enclosure_outer enclosure_inner ⟨0, 0, 0⟩ :=
  enclosure_open_topped.2.1 ⟨0, 0, 0⟩
    (by norm_num [enclosure_inner, padding])
    (by norm_num [enclosure_inner, padding])
    (by norm_num [enclosure_inner, padding])
    (by norm_num [enclosure_inner, padding])
    (by norm_num [enclosure_inner, padding])

/-- Camera configuration surface, with the demo's tunable fields.  Counts are
integers so that non-positive values can be stated. -/
structure CameraConfig where
  ray_min_depth : ℤ
  ray_max_depth : ℤ
  ray_extinction_prob : ℚ
  pixel_samples : ℤ
  rays : ℤ
  spectral_samples : ℤ
deriving DecidableEq, Repr

/-- Modelled from the spec: the configuration bounds checked before rendering
begins — `ray_min_depth ≥ 0`, `ray_max_depth ≥ ray_min_depth`,
`ray_extinction_prob` in [0, 1), and positive sample counts. -/
def validConfig (c : CameraConfig) : Bool :=
  decide (0 ≤ c.ray_min_depth) && decide (c.ray_min_depth ≤ c.ray_max_depth) &&
  decide (0 ≤ c.ray_extinction_prob) && decide (c.ray_extinction_prob < 1) &&
  decide (1 ≤ c.pixel_samples) && decide (1 ≤ c.rays) &&
  decide (1 ≤ c.spectral_samples)

/-- Result of a render invocation: either a reported configuration error,
fatal to the invocation but not to the process, or a frame buffer. -/
inductive RenderResult (α : Type) where
  | configurationError
  | frame (buffer : α)
deriving DecidableEq, Repr

/-- Modelled from the spec: the render invocation validates the camera
configuration and reports a ConfigurationError before any rendering begins —
the renderer is never invoked on an invalid configuration. -/
def observeRender {α : Type} (c : CameraConfig) (render : CameraConfig → α) :
    RenderResult α :=
  if validConfig c then .frame (render c) else .configurationError

/-- The demo's camera parameters: `ray_min_depth = 3`, `ray_max_depth = 500`,
`ray_extinction_prob = 0.01`, `pixel_samples = 250`, `rays = 10`,
`spectral_samples = 2`. -/
def demoCameraConfig : CameraConfig :=
  ⟨3, 500, 1/100, 250, 10, 2⟩

/-- C8: a configuration with `ray_extinction_prob ≥ 1`, or a non-positive
sample count, or `ray_max_depth < ray_min_depth`, makes the render
invocation report a ConfigurationError before any rendering begins —
whatever renderer is supplied, it is not run and the invocation returns the
error rather than crashing the process; the demo's configuration satisfies
every stated bound and raises no ConfigurationError. -/
theorem configuration_error_detection :
    (∀ (c : CameraConfig),
      (1 ≤ c.ray_extinction_prob ∨ c.pixel_samples ≤ 0 ∨ c.rays ≤ 0 ∨
        c.spectral_samples ≤ 0 ∨ c.ray_max_depth < c.ray_min_depth) →
      ∀ (α : Type) (render : CameraConfig → α),
        observeRender c render = .configurationError) ∧
    (∀ (α : Type) (render : CameraConfig → α),
      observeRender demoCameraConfig render
        = .frame (render demoCameraConfig)) := by
  constructor
  · intro c hbad α render
    have hinvalid : ¬ validConfig c = true := by
      intro hval
      simp only [validConfig, Bool.and_eq_true, decide_eq_true_eq] at hval
      obtain ⟨⟨⟨⟨⟨⟨_, h2⟩, _⟩, h4⟩, h5⟩, h6⟩, h7⟩ := hval
      rcases hbad with h | h | h | h | h
      · linarith
      · omega
      · omega
      · omega
      · omega
    simp [observeRender, hinvalid]
  · intro α render
    have hvalid : validConfig demoCameraConfig = true := by
      simp only [validConfig, demoCameraConfig, Bool.and_eq_true, decide_eq_true_eq]
      norm_num
    simp [observeRender, hvalid]

/-- C8 witness: a copy of the demo configuration with extinction probability
2 is rejected without running the renderer, while the demo configuration
itself renders a frame. -/
theorem configuration_error_detection_witness :
    observeRender ⟨3, 500, 2, 250, 10, 2⟩ (fun _ => (0 : ℕ))
        = .configurationError ∧
    observeRender demoCameraConfig (fun _ => (0 : ℕ)) = .frame 0 :=
  ⟨configuration_error_detection.1 ⟨3, 500, 2, 250, 10, 2⟩
      (Or.inl (by norm_num)) ℕ (fun _ => 0),
   configuration_error_detection.2 ℕ (fun _ => 0)⟩

/-- Modelled from the spec: per-pixel progressive accumulation — sum the
sample contributions, then divide by their count. -/
def accumulatePixel (samples : List ℚ) : ℚ :=
  samples.sum / samples.length

/-- Modelled from the spec: a deterministic pseudo-random generator step, the
only source of randomness in a render. -/
def lcgNext (s : ℕ) : ℕ :=
  (1103515245 * s + 12345) % 2147483648

/-- Modelled from the spec: the sample contributions of one pixel, generated
deterministically from the seed. -/
def pixelSampleStream (seed n : ℕ) : List ℚ :=
  (List.range n).map (fun k => ((lcgNext^[k + 1] seed : ℕ) : ℚ) / 2147483648)

/-- Modelled from the spec: the frame buffer of a render — one accumulated
pixel value per pixel, every sample drawn from the seeded deterministic
generator. -/
def frameBuffer (seed pixels samplesPerPixel : ℕ) : List ℚ :=
  (List.range pixels).map
    (fun px => accumulatePixel (pixelSampleStream (seed + px) samplesPerPixel))

/-- C9: two render runs with the same seed and camera parameters produce
identical frame buffers, and the accumulated value of a pixel is invariant
under any reordering of the completion order of its samples, because
accumulation is a commutative sum followed by division by the count. -/
theorem render_deterministic_and_order_invariant :
    (∀ seed₁ seed₂ pixels₁ pixels₂ spp₁ spp₂ : ℕ,
      seed₁ = seed₂ → pixels₁ = pixels₂ → spp₁ = spp₂ →
      frameBuffer seed₁ pixels₁ spp₁ = frameBuffer seed₂ pixels₂ spp₂) ∧
    (∀ l l₂ : List ℚ, l.Perm l₂ → accumulatePixel l = accumulatePixel l₂) := by
  constructor
  · intro seed₁ seed₂ pixels₁ pixels₂ spp₁ spp₂ h1 h2 h3
    rw [h1, h2, h3]
  · intro l l₂ hperm
    rw [accumulatePixel, accumulatePixel, hperm.sum_eq, hperm.length_eq]

/-- C9 witness: the two-pixel frame at seed 42 reproduces itself, and the
pixel accumulating samples 1, 2 in either completion order has the same
value. -/
theorem render_deterministic_and_order_invariant_witness :
    frameBuffer 42 2 3 = frameBuffer 42 2 3 ∧
    accumulatePixel [1, 2] = accumulatePixel [2, 1] :=
  ⟨render_deterministic_and_order_invariant.1 42 42 2 2 3 3 rfl rfl rfl,
   render_deterministic_and_order_invariant.2 [1, 2] [2, 1]
     (List.Perm.swap 2 1 [])⟩
